import Mathlib

/-!
Shallow embedding of the pycobra EWA aggregator (`pycobra/ewa.py`) and the
pure parts of the diagnostics engine (`pycobra/diagnostics.py`).

Conventions of the embedding:
* Python floats are modelled as real numbers (`ℝ`) where `np.exp` is involved
  (the EWA weights) and as rationals (`ℚ`) in the diagnostics sweeps, which
  only use comparison, subtraction, sorting, `min` and `max`.
* A fitted scikit-learn regressor is an opaque prediction function `α → ℝ`
  on an abstract row type `α`; `machine.predict(rows)` is `rows.map machine`.
* A Python dict is an association list in insertion order with distinct keys.
* Operations that can raise in Python return `Except String _`; the error
  branch is taken exactly when the Python code would raise.
* The `Cobra` ensemble class is an external collaborator (it lives outside
  the given sources), so the score that `Diagnostics` computes for one grid
  point by building and querying a fresh `Cobra` is an opaque function
  supplied as a parameter to the sweep models.
-/

/-- Association-list lookup, the model of Python dict access `d[k]`
(`none` models a `KeyError`). -/
def alookup {K V : Type} [DecidableEq K] : List (K × V) → K → Option V
  | [], _ => none
  | p :: ps, k => if p.1 = k then some p.2 else alookup ps k

/-- Python `min` on a list (`none` models the `ValueError` on an empty list). -/
def listMin {β : Type} [LinearOrder β] : List β → Option β
  | [] => none
  | x :: xs => some (xs.foldl min x)

/-- Python `max` on a list (`none` models the `ValueError` on an empty list). -/
def listMax {β : Type} [LinearOrder β] : List β → Option β
  | [] => none
  | x :: xs => some (xs.foldl max x)

/-- Python slice `xs[:k]` where `k` may be `None`. -/
def pySliceTo {β : Type} (xs : List β) : Option ℕ → List β
  | none => xs
  | some k => xs.take k

/-- Python slice `xs[k:l]` where either bound may be `None`
(nonnegative bounds, the only case the callers produce). -/
def pySlice {β : Type} (xs : List β) : Option ℕ → Option ℕ → List β
  | none, none => xs
  | none, some l => xs.take l
  | some k, none => xs.drop k
  | some k, some l => (xs.take l).drop k

/-- The state of `pycobra.ewa.Ewa`: the machine registry, the training data,
the split, and the per-machine MSE / weight maps (empty before
`load_machine_weights` has run, mirroring the not-yet-set attributes). -/
structure Ewa (α : Type) where
  machines : List (String × (α → ℝ)) := []
  X : List α := []
  y : List ℝ := []
  X_k : List α := []
  X_l : List α := []
  y_k : List ℝ := []
  y_l : List ℝ := []
  machine_MSE : List (String × ℝ) := []
  machine_weight : List (String × ℝ) := []

/-- Model of `sklearn.metrics.mean_squared_error`: the mean of the squared
componentwise differences. -/
noncomputable def mean_squared_error (y_true y_pred : List ℝ) : ℝ :=
  ((List.zipWith (fun a b => (a - b) ^ 2) y_true y_pred).sum) / (y_true.length : ℝ)

/-- The MSE of one machine on the aggregation split, that is
`mean_squared_error(self.y_l, machine.predict(self.X_l))` (ewa.py line 174). -/
noncomputable def Ewa.machineMSE {α : Type} (st : Ewa α) (m : α → ℝ) : ℝ :=
  mean_squared_error st.y_l (st.X_l.map m)

/-- The normalisation constant of `load_machine_weights`: the sum over all
registered machines of the unnormalised weights
`np.exp((- len(y_l) * MSE) / beta)` (ewa.py line 177). -/
noncomputable def Ewa.weightNormalizer {α : Type} (st : Ewa α) (beta : ℝ) : ℝ :=
  (st.machines.map (fun nm =>
    Real.exp ((-(st.y_l.length : ℝ) * st.machineMSE nm.2) / beta))).sum

/-- Model of `Ewa.load_machine_weights` (ewa.py lines 157-180).  For every
registered machine it records the MSE on `(X_l, y_l)` and the unnormalised
weight `np.exp((- len(y_l) * MSE) / beta)`, then divides every weight by
their sum.  The error branch models the `ValueError` that
`mean_squared_error` raises on its first call when the aggregation split is
empty or has inconsistent lengths; with an empty registry the loop body and
the normalising comprehension never execute, so no error can arise there. -/
noncomputable def Ewa.load_machine_weights {α : Type} (st : Ewa α) (beta : ℝ) :
    Except String (Ewa α) :=
  if st.machines.isEmpty = false ∧ (st.X_l.length ≠ st.y_l.length ∨ st.y_l.length = 0) then
    .error "ValueError: bad aggregation split for mean_squared_error"
  else
    let mse := st.machines.map (fun nm => (nm.1, st.machineMSE nm.2))
    let w := st.machines.map (fun nm =>
      (nm.1, Real.exp ((-(st.y_l.length : ℝ) * st.machineMSE nm.2) / beta)))
    let normalise := (w.map Prod.snd).sum
    .ok { st with
            machine_MSE := mse
            machine_weight := w.map (fun p => (p.1, p.2 / normalise)) }

/-- A numpy value that is either a scalar or a one-dimensional array; the
accumulator `result` of `Ewa.predict` starts as the scalar `0.0` and becomes
an array on the first broadcast addition. -/
inductive NumVal : Type
  | scalar (x : ℝ)
  | arr (xs : List ℝ)

/-- Numpy addition with scalar broadcasting. -/
noncomputable def NumVal.add : NumVal → NumVal → NumVal
  | .scalar a, .scalar b => .scalar (a + b)
  | .scalar a, .arr bs => .arr (bs.map (fun b => a + b))
  | .arr as0, .scalar b => .arr (as0.map (fun a => a + b))
  | .arr as0, .arr bs => .arr (List.zipWith (fun a b => a + b) as0 bs)

/-- The accumulation loop of `Ewa.predict` (ewa.py lines 191-193):
`result += self.machine_weight[machine] * self.machines[machine].predict(X)`
for every registered machine.  A missing weight models the `KeyError` on
`self.machine_weight[machine]`. -/
noncomputable def Ewa.predictAux {α : Type} (weights : List (String × ℝ)) (X : List α) :
    List (String × (α → ℝ)) → NumVal → Except String NumVal
  | [], result => .ok result
  | nm :: rest, result =>
    match alookup weights nm.1 with
    | none => .error "KeyError: machine weight was never computed"
    | some w =>
        Ewa.predictAux weights X rest (result.add (.arr (X.map (fun x => w * nm.2 x))))

/-- Model of `Ewa.predict` (ewa.py lines 183-195).  `check_array` raises on
an input with zero samples; afterwards the weighted machine predictions are
accumulated onto the scalar `0.0`. -/
noncomputable def Ewa.predict {α : Type} (st : Ewa α) (X : List α) : Except String NumVal :=
  if X.isEmpty then .error "ValueError: check_array found an array with 0 samples"
  else Ewa.predictAux st.machine_weight X st.machines (.scalar 0)

/-- Model of `Ewa.split_data` (ewa.py lines 83-110) on the
`shuffle_data=False` path (shuffling delegates to `sklearn.utils.shuffle`,
an external collaborator, and every claim under study fixes no shuffling).
When both `k` and `l` are `None` they default to `len(X) // 2` and `len(X)`;
then `X_k = X[:k]`, `X_l = X[k:l]`, and likewise for `y`. -/
def Ewa.split_data {α : Type} (st : Ewa α) (k l : Option ℕ) : Ewa α :=
  let kl : Option ℕ × Option ℕ :=
    match k, l with
    | none, none => (some (st.X.length / 2), some st.X.length)
    | k, l => (k, l)
  { st with
      X_k := pySliceTo st.X kl.1
      X_l := pySlice st.X kl.1 kl.2
      y_k := pySliceTo st.y kl.1
      y_l := pySlice st.y kl.1 kl.2 }

/-- Python `sorted(pool)` for the raw-prediction pool of the reference
ensemble (diagnostics.py line 211). -/
def sortedPool (pool : List ℚ) : List ℚ :=
  pool.mergeSort (fun a b => a ≤ b)

/-- The list `res = [a[i + 1] - a[i] for i in range(size) if i + 1 < size]`
of consecutive differences of the sorted pool (diagnostics.py line 212). -/
def consecDiffs (pool : List ℚ) : List ℚ :=
  List.zipWith (fun x y => y - x) (sortedPool pool) (sortedPool pool).tail

/-- The epsilon search-range bounds `(emin, emax)` computed by
`Diagnostics.optimal_epsilon` (diagnostics.py lines 211-215) and repeated
verbatim by the joint grid sweeps (lines 321-325 and 372-376):
`emin = min(res)` and `emax = max(a) - min(a)`.  `none` models the
`ValueError` of `min` on an empty `res` (a pool with fewer than two
elements). -/
def Diagnostics.epsilonBounds (pool : List ℚ) : Option (ℚ × ℚ) :=
  match listMin (consecDiffs pool), listMax (sortedPool pool), listMin (sortedPool pool) with
  | some emin, some amax, some amin => some (emin, amax - amin)
  | _, _, _ => none

/-- Modelled from the spec (section 8, epsilon bound derivation): the
"smallest positive difference between consecutive values of sorted(P)".
This is the specification-side quantity the computed minimum bound is
compared against; it is not computed by the source. -/
def smallestPositiveGap (pool : List ℚ) : Option ℚ :=
  listMin ((consecDiffs pool).filter (fun d => 0 < d))

/-- Model of `itertools.combinations(l, n)`: every length-`n` subsequence of
`l`, emitted in lexicographic order of element positions (as the itertools
documentation specifies): first every combination containing the head of
`l` (the head consed onto each length-`(n-1)` combination of the tail, in
order), then the combinations drawn from the tail alone. -/
def combinations {β : Type} : ℕ → List β → List (List β)
  | 0, _ => [[]]
  | _ + 1, [] => []
  | n + 1, x :: xs => ((combinations n xs).map (fun c => x :: c)) ++ combinations (n + 1) xs

/-- The machine-subset enumeration of `Diagnostics.optimal_machines`
(diagnostics.py lines 160-165): for `num` in `1 .. n` the list
`itertools.combinations(machine_names, num)` — every subsequence of the
registry key list of length `num` in itertools order — grouped by
ascending cardinality. -/
def Diagnostics.enumCombinations (names : List String) : List (List String) :=
  (List.range' 1 names.length).flatMap (fun num => combinations num names)

/-- One step of Python `min(iterable, key=f)`: the running minimum is
replaced only on a strictly smaller value, so the first minimum wins. -/
def pyMinStep {K : Type} (best q : K × ℚ) : K × ℚ :=
  if q.2 < best.2 then q else best

/-- Python `min(MSE, key=MSE.get)` over a dict in iteration order
(`none` models the `ValueError` on an empty dict). -/
def pyMinKey {K : Type} : List (K × ℚ) → Option K
  | [] => none
  | p :: ps => some ((ps.foldl pyMinStep p).1)

/-- The `info=False` return path shared by every sweep:
`opt = min(MSE, key=MSE.get); return opt, MSE[opt]`. -/
def sweepBest {K : Type} [DecidableEq K] (m : List (K × ℚ)) : Option (K × ℚ) :=
  match pyMinKey m with
  | none => none
  | some k =>
    match alookup m k with
    | none => none
    | some v => some (k, v)

/-- The MSE map built by `Diagnostics.optimal_alpha` (diagnostics.py lines
110-120): one entry per `alpha` in `range(1, len(machines) + 1)`.  `score
alpha` abstracts fitting a fresh external `Cobra` on the reference data and
scoring its prediction at minimum-agreement count `alpha`. -/
def Diagnostics.optimal_alpha_info (n : ℕ) (score : ℕ → ℚ) : List (ℕ × ℚ) :=
  (List.range' 1 n).map (fun alpha => (alpha, score alpha))

/-- The `info=False` return value of `Diagnostics.optimal_alpha`
(diagnostics.py lines 122-125). -/
def Diagnostics.optimal_alpha_best (n : ℕ) (score : ℕ → ℚ) : Option (ℕ × ℚ) :=
  sweepBest (Diagnostics.optimal_alpha_info n score)

/-- The MSE map built by `Diagnostics.optimal_machines` (diagnostics.py
lines 160-176): one entry per enumerated machine combination.  `score c`
abstracts building a fresh external `Cobra` restricted to the combination
`c` and scoring it. -/
def Diagnostics.optimal_machines_info (names : List String) (score : List String → ℚ) :
    List (List String × ℚ) :=
  (Diagnostics.enumCombinations names).map (fun c => (c, score c))

/-- The `info=False` return value of `Diagnostics.optimal_machines`
(diagnostics.py lines 178-181). -/
def Diagnostics.optimal_machines_best (names : List String) (score : List String → ℚ) :
    Option (List String × ℚ) :=
  sweepBest (Diagnostics.optimal_machines_info names score)

/-! ### Generic helper lemmas -/

theorem sum_map_div (l : List ℝ) (c : ℝ) :
    (l.map (fun x => x / c)).sum = l.sum / c := by
  induction l with
  | nil => simp
  | cons x xs ih => simp [ih, add_div]

theorem zipWith_add_map {α : Type} (g h : α → ℝ) (X : List α) :
    List.zipWith (fun a b => a + b) (X.map g) (X.map h)
      = X.map (fun x => g x + h x) := by
  induction X with
  | nil => rfl
  | cons x xs ih => simp [ih]

theorem alookup_eq_of_mem {K V : Type} [DecidableEq K] (l : List (K × V)) (p : K × V)
    (hkeys : (l.map Prod.fst).Nodup) (hp : p ∈ l) : alookup l p.1 = some p.2 := by
  induction l with
  | nil => cases hp
  | cons q rest ih =>
    rw [List.map_cons, List.nodup_cons] at hkeys
    rcases List.mem_cons.mp hp with rfl | hp
    · simp [alookup]
    · have hne : q.1 ≠ p.1 := by
        intro he
        exact hkeys.1 (he ▸ List.mem_map_of_mem Prod.fst hp)
      simp only [alookup, if_neg hne]
      exact ih hkeys.2 hp

theorem alookup_map_value {K V W : Type} [DecidableEq K] (l : List (K × V))
    (f : K × V → W) (p : K × V)
    (hkeys : (l.map Prod.fst).Nodup) (hp : p ∈ l) :
    alookup (l.map (fun q => (q.1, f q))) p.1 = some (f p) := by
  have hkeys2 : ((l.map (fun q => (q.1, f q))).map Prod.fst).Nodup := by
    rw [List.map_map]
    simpa [Function.comp_def] using hkeys
  have := alookup_eq_of_mem (l.map (fun q => (q.1, f q))) (p.1, f p) hkeys2
    (List.mem_map_of_mem _ hp)
  simpa using this

theorem listMin_le {β : Type} [LinearOrder β] {l : List β} {m : β}
    (h : listMin l = some m) : ∀ x ∈ l, m ≤ x := by
  cases l with
  | nil => cases h
  | cons a xs =>
    simp only [listMin, Option.some.injEq] at h
    subst h
    have key : ∀ (ys : List β) (a : β),
        ys.foldl min a ≤ a ∧ ∀ z ∈ ys, ys.foldl min a ≤ z := by
      intro ys
      induction ys with
      | nil => exact fun a => ⟨le_refl a, by simp⟩
      | cons y ys ih =>
        intro a
        refine ⟨le_trans (ih (min a y)).1 (min_le_left a y), ?_⟩
        intro z hz
        rcases List.mem_cons.mp hz with rfl | hz
        · exact le_trans (ih (min a z)).1 (min_le_right a z)
        · exact (ih (min a y)).2 z hz
    intro x hx
    rcases List.mem_cons.mp hx with rfl | hx
    · exact (key xs x).1
    · exact (key xs a).2 x hx

theorem listMin_mem {β : Type} [LinearOrder β] {l : List β} {m : β}
    (h : listMin l = some m) : m ∈ l := by
  cases l with
  | nil => cases h
  | cons a xs =>
    simp only [listMin, Option.some.injEq] at h
    subst h
    have key : ∀ (ys : List β) (a : β), ys.foldl min a = a ∨ ys.foldl min a ∈ ys := by
      intro ys
      induction ys with
      | nil => exact fun a => Or.inl rfl
      | cons y ys ih =>
        intro a
        rcases ih (min a y) with he | hm
        · rcases min_choice a y with hc | hc
          · exact Or.inl (by rw [List.foldl_cons, he, hc])
          · exact Or.inr (by rw [List.foldl_cons, he, hc]; exact List.mem_cons_self y ys)
        · exact Or.inr (List.mem_cons_of_mem y hm)
    rcases key xs a with he | hm
    · rw [he]; exact List.mem_cons_self a xs
    · exact List.mem_cons_of_mem a hm

theorem listMax_ge {β : Type} [LinearOrder β] {l : List β} {m : β}
    (h : listMax l = some m) : ∀ x ∈ l, x ≤ m := by
  cases l with
  | nil => cases h
  | cons a xs =>
    simp only [listMax, Option.some.injEq] at h
    subst h
    have key : ∀ (ys : List β) (a : β),
        a ≤ ys.foldl max a ∧ ∀ z ∈ ys, z ≤ ys.foldl max a := by
      intro ys
      induction ys with
      | nil => exact fun a => ⟨le_refl a, by simp⟩
      | cons y ys ih =>
        intro a
        refine ⟨le_trans (le_max_left a y) (ih (max a y)).1, ?_⟩
        intro z hz
        rcases List.mem_cons.mp hz with rfl | hz
        · exact le_trans (le_max_right a z) (ih (max a z)).1
        · exact (ih (max a y)).2 z hz
    intro x hx
    rcases List.mem_cons.mp hx with rfl | hx
    · exact (key xs x).1
    · exact (key xs a).2 x hx

theorem listMax_mem {β : Type} [LinearOrder β] {l : List β} {m : β}
    (h : listMax l = some m) : m ∈ l := by
  cases l with
  | nil => cases h
  | cons a xs =>
    simp only [listMax, Option.some.injEq] at h
    subst h
    have key : ∀ (ys : List β) (a : β), ys.foldl max a = a ∨ ys.foldl max a ∈ ys := by
      intro ys
      induction ys with
      | nil => exact fun a => Or.inl rfl
      | cons y ys ih =>
        intro a
        rcases ih (max a y) with he | hm
        · rcases max_choice a y with hc | hc
          · exact Or.inl (by rw [List.foldl_cons, he, hc])
          · exact Or.inr (by rw [List.foldl_cons, he, hc]; exact List.mem_cons_self y ys)
        · exact Or.inr (List.mem_cons_of_mem y hm)
    rcases key xs a with he | hm
    · rw [he]; exact List.mem_cons_self a xs
    · exact List.mem_cons_of_mem a hm

theorem listMin_isSome {β : Type} [LinearOrder β] {l : List β} (h : l ≠ []) :
    ∃ m, listMin l = some m := by
  cases l with
  | nil => exact absurd rfl h
  | cons a xs => exact ⟨xs.foldl min a, rfl⟩

theorem listMax_isSome {β : Type} [LinearOrder β] {l : List β} (h : l ≠ []) :
    ∃ m, listMax l = some m := by
  cases l with
  | nil => exact absurd rfl h
  | cons a xs => exact ⟨xs.foldl max a, rfl⟩

theorem listMin_congr {β : Type} [LinearOrder β] {l₁ l₂ : List β}
    (h : ∀ x, x ∈ l₁ ↔ x ∈ l₂) : listMin l₁ = listMin l₂ := by
  cases l₁ with
  | nil =>
    cases l₂ with
    | nil => rfl
    | cons b ys =>
      exact absurd ((h b).mpr (List.mem_cons_self b ys)) (List.not_mem_nil b)
  | cons a xs =>
    cases l₂ with
    | nil =>
      exact absurd ((h a).mp (List.mem_cons_self a xs)) (List.not_mem_nil a)
    | cons b ys =>
      obtain ⟨m₁, hm₁⟩ := listMin_isSome (l := a :: xs) (by simp)
      obtain ⟨m₂, hm₂⟩ := listMin_isSome (l := b :: ys) (by simp)
      rw [hm₁, hm₂]
      have h12 : m₁ ≤ m₂ := listMin_le hm₁ m₂ ((h m₂).mpr (listMin_mem hm₂))
      have h21 : m₂ ≤ m₁ := listMin_le hm₂ m₁ ((h m₁).mp (listMin_mem hm₁))
      rw [le_antisymm h12 h21]

theorem listMax_congr {β : Type} [LinearOrder β] {l₁ l₂ : List β}
    (h : ∀ x, x ∈ l₁ ↔ x ∈ l₂) : listMax l₁ = listMax l₂ := by
  cases l₁ with
  | nil =>
    cases l₂ with
    | nil => rfl
    | cons b ys =>
      exact absurd ((h b).mpr (List.mem_cons_self b ys)) (List.not_mem_nil b)
  | cons a xs =>
    cases l₂ with
    | nil =>
      exact absurd ((h a).mp (List.mem_cons_self a xs)) (List.not_mem_nil a)
    | cons b ys =>
      obtain ⟨m₁, hm₁⟩ := listMax_isSome (l := a :: xs) (by simp)
      obtain ⟨m₂, hm₂⟩ := listMax_isSome (l := b :: ys) (by simp)
      rw [hm₁, hm₂]
      have h12 : m₂ ≤ m₁ := listMax_ge hm₁ m₂ ((h m₂).mpr (listMax_mem hm₂))
      have h21 : m₁ ≤ m₂ := listMax_ge hm₂ m₁ ((h m₁).mp (listMax_mem hm₁))
      rw [le_antisymm h21 h12]

/-! ### Claims about `Ewa.split_data` -/

/-- C8: with no explicit `k` and `l` (and no shuffle), `split_data` sets
`X_k` to the first `len(X) / 2` rows (floor division) and `X_l` to the
remaining `len(X) - len(X) / 2` rows, and `y_k`, `y_l` to the matching
slices of `y`. -/
theorem split_data_default_halves {α : Type} (st : Ewa α)
    (hy : st.y.length = st.X.length) :
    (st.split_data none none).X_k = st.X.take (st.X.length / 2) ∧
    (st.split_data none none).X_l = st.X.drop (st.X.length / 2) ∧
    (st.split_data none none).y_k = st.y.take (st.X.length / 2) ∧
    (st.split_data none none).y_l = st.y.drop (st.X.length / 2) ∧
    (st.split_data none none).X_k.length = st.X.length / 2 ∧
    (st.split_data none none).X_l.length = st.X.length - st.X.length / 2 := by
  have hXl : pySlice st.X (some (st.X.length / 2)) (some st.X.length)
      = st.X.drop (st.X.length / 2) := by
    rw [pySlice, List.take_length]
  have hyl : pySlice st.y (some (st.X.length / 2)) (some st.X.length)
      = st.y.drop (st.X.length / 2) := by
    rw [pySlice, ← hy, List.take_length]
  refine ⟨rfl, hXl, rfl, hyl, ?_, ?_⟩
  · show (pySliceTo st.X (some (st.X.length / 2))).length = st.X.length / 2
    rw [pySliceTo]
    exact List.length_take_of_le (Nat.div_le_self _ _)
  · show (pySlice st.X (some (st.X.length / 2)) (some st.X.length)).length
      = st.X.length - st.X.length / 2
    rw [hXl, List.length_drop]

/-- C8 witness: the default split of a four-row training set puts the first
two rows in `X_k` and the last two in `X_l`. -/
theorem split_data_default_halves_witness :
    (({ X := [10, 20, 30, 40], y := [1, 2, 3, 4] } : Ewa ℚ).y.length
        = ({ X := [10, 20, 30, 40], y := [1, 2, 3, 4] } : Ewa ℚ).X.length) ∧
    (({ X := [10, 20, 30, 40], y := [1, 2, 3, 4] } : Ewa ℚ).split_data none none).X_k
        = ({ X := [10, 20, 30, 40], y := [1, 2, 3, 4] } : Ewa ℚ).X.take
            (({ X := [10, 20, 30, 40], y := [1, 2, 3, 4] } : Ewa ℚ).X.length / 2) := by
  refine ⟨rfl, ?_⟩
  exact (split_data_default_halves ({ X := [10, 20, 30, 40], y := [1, 2, 3, 4] } : Ewa ℚ)
    rfl).1

/-- C10: with an explicit `k` and `l` omitted, `split_data` sets `X_k` to
the first `k` rows and `X_l` to every row from index `k` to the end, so for
`k ≤ n` the two parts are a disjoint partition of the training set with
`len(X_k) = k` and `len(X_k) + len(X_l) = n`, and likewise for `y`. -/
theorem split_data_explicit_k_partition {α : Type} (st : Ewa α) (k : ℕ)
    (hk : k ≤ st.X.length) (hy : st.y.length = st.X.length) :
    (st.split_data (some k) none).X_k = st.X.take k ∧
    (st.split_data (some k) none).X_l = st.X.drop k ∧
    (st.split_data (some k) none).X_k ++ (st.split_data (some k) none).X_l = st.X ∧
    (st.split_data (some k) none).X_k.length = k ∧
    (st.split_data (some k) none).X_k.length + (st.split_data (some k) none).X_l.length
      = st.X.length ∧
    (st.split_data (some k) none).y_k = st.y.take k ∧
    (st.split_data (some k) none).y_l = st.y.drop k ∧
    (st.split_data (some k) none).y_k ++ (st.split_data (some k) none).y_l = st.y ∧
    (st.split_data (some k) none).y_k.length + (st.split_data (some k) none).y_l.length
      = st.y.length := by
  refine ⟨rfl, rfl, ?_, ?_, ?_, rfl, rfl, ?_, ?_⟩
  · exact List.take_append_drop k st.X
  · exact List.length_take_of_le hk
  · show (st.X.take k).length + (st.X.drop k).length = st.X.length
    rw [List.length_take, List.length_drop, Nat.min_eq_left hk]
    omega
  · exact List.take_append_drop k st.y
  · show (st.y.take k).length + (st.y.drop k).length = st.y.length
    rw [List.length_take, List.length_drop, Nat.min_eq_left (hy ▸ hk)]
    omega

/-- C10 witness: splitting a three-row training set at `k = 1`. -/
theorem split_data_explicit_k_partition_witness :
    ((1 : ℕ) ≤ ({ X := [10, 20, 30], y := [1, 2, 3] } : Ewa ℚ).X.length ∧
      ({ X := [10, 20, 30], y := [1, 2, 3] } : Ewa ℚ).y.length
        = ({ X := [10, 20, 30], y := [1, 2, 3] } : Ewa ℚ).X.length) ∧
    (({ X := [10, 20, 30], y := [1, 2, 3] } : Ewa ℚ).split_data (some 1) none).X_k ++
        (({ X := [10, 20, 30], y := [1, 2, 3] } : Ewa ℚ).split_data (some 1) none).X_l
      = ({ X := [10, 20, 30], y := [1, 2, 3] } : Ewa ℚ).X := by
  refine ⟨⟨by decide, rfl⟩, ?_⟩
  exact (split_data_explicit_k_partition ({ X := [10, 20, 30], y := [1, 2, 3] } : Ewa ℚ)
    1 (by decide) rfl).2.2.1

/-! ### Claims about `Ewa.predict` and the empty registry -/

/-- C9: `predict` on a valid (non-empty) input with an empty machine
registry returns the scalar `0.0`, raising no error, independently of `X`
and of whether weights were ever computed. -/
theorem predict_empty_registry_scalar_zero {α : Type} (st : Ewa α) (X : List α)
    (hm : st.machines = []) (hX : X ≠ []) :
    st.predict X = .ok (.scalar 0) := by
  rw [Ewa.predict, if_neg (by simp [hX]), hm, Ewa.predictAux]

/-- C9 witness: an `Ewa` with no machines (and no weights) applied to a
one-row query. -/
theorem predict_empty_registry_scalar_zero_witness :
    (({ } : Ewa Unit).machines = [] ∧ ([()] : List Unit) ≠ []) ∧
    ({ } : Ewa Unit).predict [()] = .ok (.scalar 0) :=
  ⟨⟨rfl, by simp⟩, predict_empty_registry_scalar_zero ({ } : Ewa Unit) [()] rfl (by simp)⟩

/-- C5 (divergence witness): with an empty machine registry,
`load_machine_weights` does not fail — the per-machine loop and the
normalising dict comprehension iterate zero times, so the call returns
normally and leaves empty (degenerate) MSE and weight maps.  The code
therefore contradicts the specified "must fail with a distinct not
configured condition" error policy. -/
theorem load_machine_weights_empty_registry_returns_ok :
    ({ } : Ewa Unit).load_machine_weights 1
      = .ok { (({ } : Ewa Unit)) with machine_MSE := [], machine_weight := [] } := by
  rw [Ewa.load_machine_weights, if_neg (by simp)]
  rfl

/-! ### Claims about `Ewa.load_machine_weights` -/

theorem load_machine_weights_ok {α : Type} (st : Ewa α) (beta : ℝ)
    (hlen : st.X_l.length = st.y_l.length) (hy : st.y_l ≠ []) :
    st.load_machine_weights beta = .ok { st with
      machine_MSE := st.machines.map (fun nm => (nm.1, st.machineMSE nm.2))
      machine_weight := st.machines.map (fun nm =>
        (nm.1, Real.exp ((-(st.y_l.length : ℝ) * st.machineMSE nm.2) / beta)
          / st.weightNormalizer beta)) } := by
  have hguard : ¬ (st.machines.isEmpty = false ∧
      (st.X_l.length ≠ st.y_l.length ∨ st.y_l.length = 0)) := by
    rintro ⟨-, h | h⟩
    · exact h hlen
    · exact hy (List.length_eq_zero.mp h)
  have hnorm : (List.map Prod.snd (st.machines.map (fun nm =>
      (nm.1, Real.exp ((-(st.y_l.length : ℝ) * st.machineMSE nm.2) / beta))))).sum
      = st.weightNormalizer beta := by
    rw [List.map_map, Ewa.weightNormalizer]
    rfl
  rw [Ewa.load_machine_weights, if_neg hguard]
  show Except.ok { st with
      machine_MSE := st.machines.map (fun nm : String × (α → ℝ) => (nm.1, st.machineMSE nm.2))
      machine_weight := (st.machines.map (fun nm : String × (α → ℝ) =>
        (nm.1, Real.exp ((-(st.y_l.length : ℝ) * st.machineMSE nm.2) / beta)))).map
          (fun p : String × ℝ =>
            (p.1, p.2 / (List.map Prod.snd (st.machines.map (fun nm : String × (α → ℝ) =>
              (nm.1, Real.exp ((-(st.y_l.length : ℝ) * st.machineMSE nm.2) / beta))))).sum)) }
    = _
  rw [hnorm, List.map_map]
  rfl

theorem weightNormalizer_pos {α : Type} (st : Ewa α) (beta : ℝ)
    (hm : st.machines ≠ []) : 0 < st.weightNormalizer beta := by
  rw [Ewa.weightNormalizer]
  apply List.sum_pos
  · intro x hx
    obtain ⟨nm, -, rfl⟩ := List.mem_map.mp hx
    exact Real.exp_pos _
  · simpa using hm

/-- C1: with a non-empty registry, `beta > 0` and a non-empty aggregation
split, `load_machine_weights beta` stores for every machine the weight
`exp(-len(y_l) * MSE / beta)` divided by the sum of those quantities over
all registered machines; consequently every stored weight is nonnegative
and the stored weights sum to `1`. -/
theorem load_machine_weights_normalized {α : Type} (st : Ewa α) (beta : ℝ)
    (hm : st.machines ≠ []) (hb : 0 < beta)
    (hlen : st.X_l.length = st.y_l.length) (hy : st.y_l ≠ []) :
    ∃ st', st.load_machine_weights beta = .ok st' ∧
      st'.machine_weight = st.machines.map (fun nm =>
        (nm.1, Real.exp ((-(st.y_l.length : ℝ) * st.machineMSE nm.2) / beta)
          / st.weightNormalizer beta)) ∧
      (∀ p ∈ st'.machine_weight, 0 ≤ p.2) ∧
      (st'.machine_weight.map Prod.snd).sum = 1 := by
  have hNpos : 0 < st.weightNormalizer beta := weightNormalizer_pos st beta hm
  refine ⟨_, load_machine_weights_ok st beta hlen hy, rfl, ?_, ?_⟩
  · intro p hp
    obtain ⟨nm, -, rfl⟩ := List.mem_map.mp hp
    exact div_nonneg (Real.exp_pos _).le hNpos.le
  · show (List.map Prod.snd (st.machines.map (fun nm =>
        (nm.1, Real.exp ((-(st.y_l.length : ℝ) * st.machineMSE nm.2) / beta)
          / st.weightNormalizer beta)))).sum = 1
    rw [List.map_map]
    have h2 : st.machines.map (Prod.snd ∘ fun nm : String × (α → ℝ) =>
        (nm.1, Real.exp ((-(st.y_l.length : ℝ) * st.machineMSE nm.2) / beta)
          / st.weightNormalizer beta))
        = (st.machines.map (fun nm =>
            Real.exp ((-(st.y_l.length : ℝ) * st.machineMSE nm.2) / beta))).map
              (fun x => x / st.weightNormalizer beta) := by
      rw [List.map_map]
      rfl
    rw [h2, sum_map_div]
    exact div_self hNpos.ne'

/-- A small concrete EWA state over a one-point aggregation split, with two
machines of different errors, used to instantiate the weight theorems. -/
noncomputable def ewaExample : Ewa Unit :=
  { machines := [("a", fun _ => 0), ("b", fun _ => 1)]
    X_l := [()]
    y_l := [0] }

/-- C1 witness: the weight theorem instantiated at `ewaExample` with
`beta = 1`. -/
theorem load_machine_weights_normalized_witness :
    (ewaExample.machines ≠ [] ∧ (0 : ℝ) < 1 ∧
      ewaExample.X_l.length = ewaExample.y_l.length ∧ ewaExample.y_l ≠ []) ∧
    (∃ st', ewaExample.load_machine_weights 1 = .ok st' ∧
      st'.machine_weight = ewaExample.machines.map (fun nm =>
        (nm.1, Real.exp ((-(ewaExample.y_l.length : ℝ) * ewaExample.machineMSE nm.2) / 1)
          / ewaExample.weightNormalizer 1)) ∧
      (∀ p ∈ st'.machine_weight, 0 ≤ p.2) ∧
      (st'.machine_weight.map Prod.snd).sum = 1) :=
  ⟨⟨by simp [ewaExample], one_pos, rfl, by simp [ewaExample]⟩,
    load_machine_weights_normalized ewaExample 1 (by simp [ewaExample]) one_pos rfl
      (by simp [ewaExample])⟩

/-- C3: with `beta > 0` and a non-empty aggregation split, a registered
machine with strictly smaller MSE on `(X_l, y_l)` receives a strictly
larger stored weight. -/
theorem load_machine_weights_monotone {α : Type} (st : Ewa α) (beta : ℝ)
    (ma mb : String × (α → ℝ))
    (hma : ma ∈ st.machines) (hmb : mb ∈ st.machines)
    (hkeys : (st.machines.map Prod.fst).Nodup)
    (hb : 0 < beta) (hlen : st.X_l.length = st.y_l.length) (hy : st.y_l ≠ [])
    (hmse : st.machineMSE ma.2 < st.machineMSE mb.2) :
    ∃ st', st.load_machine_weights beta = .ok st' ∧
      ∃ wa wb, alookup st'.machine_weight ma.1 = some wa ∧
        alookup st'.machine_weight mb.1 = some wb ∧ wb < wa := by
  have hm : st.machines ≠ [] := fun he => by rw [he] at hma; cases hma
  have hNpos : 0 < st.weightNormalizer beta := weightNormalizer_pos st beta hm
  refine ⟨_, load_machine_weights_ok st beta hlen hy, ?_⟩
  have hwa : alookup (st.machines.map (fun nm =>
      (nm.1, Real.exp ((-(st.y_l.length : ℝ) * st.machineMSE nm.2) / beta)
        / st.weightNormalizer beta))) ma.1
      = some (Real.exp ((-(st.y_l.length : ℝ) * st.machineMSE ma.2) / beta)
          / st.weightNormalizer beta) :=
    alookup_map_value st.machines _ ma hkeys hma
  have hwb : alookup (st.machines.map (fun nm =>
      (nm.1, Real.exp ((-(st.y_l.length : ℝ) * st.machineMSE nm.2) / beta)
        / st.weightNormalizer beta))) mb.1
      = some (Real.exp ((-(st.y_l.length : ℝ) * st.machineMSE mb.2) / beta)
          / st.weightNormalizer beta) :=
    alookup_map_value st.machines _ mb hkeys hmb
  refine ⟨_, _, hwa, hwb, ?_⟩
  have hnlen : (0 : ℝ) < (st.y_l.length : ℝ) :=
    Nat.cast_pos.mpr (List.length_pos.mpr hy)
  have hneg : (-(st.y_l.length : ℝ)) * st.machineMSE mb.2
      < (-(st.y_l.length : ℝ)) * st.machineMSE ma.2 :=
    mul_lt_mul_of_neg_left hmse (neg_lt_zero.mpr hnlen)
  exact (div_lt_div_iff_of_pos_right hNpos).mpr
    (Real.exp_lt_exp.mpr ((div_lt_div_iff_of_pos_right hb).mpr hneg))

/-- C3 witness: in `ewaExample`, machine `a` (MSE 0) gets a strictly larger
weight than machine `b` (MSE 1) for `beta = 1`. -/
theorem load_machine_weights_monotone_witness :
    ((("a", fun _ => (0 : ℝ)) : String × (Unit → ℝ)) ∈ ewaExample.machines ∧
      (("b", fun _ => (1 : ℝ)) : String × (Unit → ℝ)) ∈ ewaExample.machines ∧
      (ewaExample.machines.map Prod.fst).Nodup ∧ (0 : ℝ) < 1 ∧
      ewaExample.X_l.length = ewaExample.y_l.length ∧ ewaExample.y_l ≠ [] ∧
      ewaExample.machineMSE (fun _ => (0 : ℝ)) < ewaExample.machineMSE (fun _ => (1 : ℝ))) ∧
    (∃ st', ewaExample.load_machine_weights 1 = .ok st' ∧
      ∃ wa wb, alookup st'.machine_weight "a" = some wa ∧
        alookup st'.machine_weight "b" = some wb ∧ wb < wa) :=
  ⟨⟨by simp [ewaExample], by simp [ewaExample], by rw [ewaExample]; decide, one_pos, rfl,
      by simp [ewaExample],
      by norm_num [ewaExample, Ewa.machineMSE, mean_squared_error]⟩,
    load_machine_weights_monotone ewaExample 1 ("a", fun _ => (0 : ℝ))
      ("b", fun _ => (1 : ℝ)) (by simp [ewaExample]) (by simp [ewaExample])
      (by rw [ewaExample]; decide) one_pos rfl (by simp [ewaExample])
      (by norm_num [ewaExample, Ewa.machineMSE, mean_squared_error])⟩

/-! ### Claims about `Ewa.predict` with loaded weights -/

theorem predictAux_arr {α : Type} (weights : List (String × ℝ)) (X : List α)
    (wf : String → ℝ) (ms : List (String × (α → ℝ)))
    (hw : ∀ nm ∈ ms, alookup weights nm.1 = some (wf nm.1)) (g : α → ℝ) :
    Ewa.predictAux weights X ms (.arr (X.map g)) =
      .ok (.arr (X.map (fun x => g x + (ms.map (fun nm => wf nm.1 * nm.2 x)).sum))) := by
  induction ms generalizing g with
  | nil => simp [Ewa.predictAux]
  | cons nm rest ih =>
    rw [Ewa.predictAux, hw nm (List.mem_cons_self _ _)]
    dsimp only
    have hadd : (NumVal.arr (X.map g)).add (.arr (X.map (fun x => wf nm.1 * nm.2 x)))
        = .arr (X.map (fun x => g x + wf nm.1 * nm.2 x)) := by
      rw [NumVal.add, zipWith_add_map]
    rw [hadd, ih (fun p hp => hw p (List.mem_cons_of_mem _ hp))]
    simp [add_assoc]

/-- C2: for an `Ewa` whose stored weight map yields a weight for every
registered machine, `predict` on a valid (non-empty) input returns, for
each row of `X`, the sum over all registered machines of (the machine's
stored weight times the machine's prediction on that row). -/
theorem predict_weighted_sum {α : Type} (st : Ewa α) (X : List α) (wf : String → ℝ)
    (hm : st.machines ≠ []) (hX : X ≠ [])
    (hw : ∀ nm ∈ st.machines, alookup st.machine_weight nm.1 = some (wf nm.1)) :
    st.predict X = .ok (.arr (X.map (fun x =>
      (st.machines.map (fun nm => wf nm.1 * nm.2 x)).sum))) := by
  rw [Ewa.predict, if_neg (by simp [hX])]
  rcases hms : st.machines with _ | ⟨nm, rest⟩
  · exact absurd hms hm
  · rw [Ewa.predictAux, hw nm (hms ▸ List.mem_cons_self _ _)]
    dsimp only
    have hadd : (NumVal.scalar 0).add (.arr (X.map (fun x => wf nm.1 * nm.2 x)))
        = .arr (X.map (fun x => wf nm.1 * nm.2 x)) := by
      rw [NumVal.add]
      simp
    rw [hadd,
      predictAux_arr st.machine_weight X wf rest
        (fun p hp => hw p (hms ▸ List.mem_cons_of_mem _ hp)) (fun x => wf nm.1 * nm.2 x)]
    simp

/-- A concrete weighted EWA state used to instantiate the prediction
theorem: one machine with weight 3 predicting twice its input. -/
noncomputable def ewaPredictExample : Ewa ℝ :=
  { machines := [("a", fun x => 2 * x)]
    machine_weight := [("a", 3)] }

/-- C2 witness: the prediction theorem instantiated at `ewaPredictExample`
on the one-row query `[5]`. -/
theorem predict_weighted_sum_witness :
    (ewaPredictExample.machines ≠ [] ∧ ([(5 : ℝ)] : List ℝ) ≠ [] ∧
      (∀ nm ∈ ewaPredictExample.machines,
        alookup ewaPredictExample.machine_weight nm.1 = some ((fun _ => (3 : ℝ)) nm.1))) ∧
    ewaPredictExample.predict [(5 : ℝ)] = .ok (.arr ([(5 : ℝ)].map (fun x =>
      (ewaPredictExample.machines.map (fun nm => (fun _ => (3 : ℝ)) nm.1 * nm.2 x)).sum))) :=
  ⟨⟨by simp [ewaPredictExample], by simp, by
      intro nm hnm
      rw [ewaPredictExample] at hnm
      rw [List.mem_singleton] at hnm
      subst hnm
      rfl⟩,
    predict_weighted_sum ewaPredictExample [(5 : ℝ)] (fun _ => (3 : ℝ))
      (by simp [ewaPredictExample]) (by simp) (by
        intro nm hnm
        rw [ewaPredictExample] at hnm
        rw [List.mem_singleton] at hnm
        subst hnm
        rfl)⟩

/-! ### Claims about the epsilon search range -/

theorem sorted_nodup_diffs_pos (a : List ℚ) (hs : List.Sorted (· ≤ ·) a) (hn : a.Nodup) :
    ∀ d ∈ List.zipWith (fun x y => y - x) a a.tail, 0 < d := by
  induction a with
  | nil => simp
  | cons x t ih =>
    cases t with
    | nil => simp
    | cons y t' =>
      intro d hd
      rw [List.tail_cons, List.zipWith_cons_cons] at hd
      rcases List.mem_cons.mp hd with rfl | hd
      · have hxy : x ≤ y := (List.sorted_cons.mp hs).1 y (List.mem_cons_self _ _)
        have hne : x ≠ y := by
          intro he
          exact (List.nodup_cons.mp hn).1 (he ▸ List.mem_cons_self y t')
        exact sub_pos.mpr (lt_of_le_of_ne hxy hne)
      · exact ih (List.sorted_cons.mp hs).2 (List.nodup_cons.mp hn).2 d hd

/-- C4 (amended): for a pool with at least two elements the computed range
satisfies: the maximum bound is `max(pool) - min(pool)`, and the minimum
bound is the smallest difference between consecutive values of the sorted
pool (an attained lower bound of `res`); when the pool has no duplicate
values this minimum bound is exactly the smallest positive difference
between consecutive values of the sorted pool. -/
theorem epsilonBounds_range (pool : List ℚ) (h2 : 2 ≤ pool.length) :
    ∃ emin amax amin,
      Diagnostics.epsilonBounds pool = some (emin, amax - amin) ∧
      listMax pool = some amax ∧ listMin pool = some amin ∧
      emin ∈ consecDiffs pool ∧ (∀ d ∈ consecDiffs pool, emin ≤ d) ∧
      (pool.Nodup → smallestPositiveGap pool = some emin) := by
  have hlen : (sortedPool pool).length = pool.length := List.length_mergeSort pool
  have hsne : sortedPool pool ≠ [] := by
    intro he
    rw [he] at hlen
    simp only [List.length_nil] at hlen
    omega
  have hdne : consecDiffs pool ≠ [] := by
    apply List.length_pos.mp
    rw [consecDiffs, List.length_zipWith, List.length_tail, hlen]
    omega
  obtain ⟨emin, hemin⟩ := listMin_isSome hdne
  obtain ⟨amax, hamax⟩ := listMax_isSome hsne
  obtain ⟨amin, hamin⟩ := listMin_isSome hsne
  have hmaxc : listMax (sortedPool pool) = listMax pool :=
    listMax_congr (fun x => List.mem_mergeSort)
  have hminc : listMin (sortedPool pool) = listMin pool :=
    listMin_congr (fun x => List.mem_mergeSort)
  refine ⟨emin, amax, amin, ?_, hmaxc ▸ hamax, hminc ▸ hamin,
    listMin_mem hemin, listMin_le hemin, ?_⟩
  · rw [Diagnostics.epsilonBounds, hemin, hamax, hamin]
  · intro hnd
    have hposall : ∀ d ∈ consecDiffs pool, 0 < d := by
      rw [consecDiffs]
      apply sorted_nodup_diffs_pos
      · exact List.sorted_mergeSort' pool
      · exact ((List.mergeSort_perm pool _).nodup_iff).mpr hnd
    rw [smallestPositiveGap,
      List.filter_eq_self.mpr (fun d hd => decide_eq_true (hposall d hd)), hemin]

/-- C4 witness: the amended range theorem instantiated at the two-element
pool `[1, 2]`. -/
theorem epsilonBounds_range_witness :
    2 ≤ ([1, 2] : List ℚ).length ∧
    (∃ emin amax amin,
      Diagnostics.epsilonBounds [1, 2] = some (emin, amax - amin) ∧
      listMax [1, 2] = some amax ∧ listMin [1, 2] = some amin ∧
      emin ∈ consecDiffs [1, 2] ∧ (∀ d ∈ consecDiffs [1, 2], emin ≤ d) ∧
      (([1, 2] : List ℚ).Nodup → smallestPositiveGap [1, 2] = some emin)) :=
  ⟨by norm_num, epsilonBounds_range [1, 2] (by norm_num)⟩

/-- C4 counterexample: the pool `[1, 1, 2]` has at least two elements, yet
the computed minimum bound is `0` (the duplicated value contributes a zero
consecutive difference to `res`), while the smallest positive difference
between consecutive values of the sorted pool is `1`; so the claim as
stated fails on pools with repeated predictions. -/
theorem epsilonBounds_duplicates_counterexample :
    Diagnostics.epsilonBounds [1, 1, 2] = some (0, 1) ∧
    smallestPositiveGap [1, 1, 2] = some 1 ∧ ¬ ((0 : ℚ) = 1) := by
  have hs : sortedPool [1, 1, 2] = [1, 1, 2] :=
    List.mergeSort_eq_self (by decide)
  have h1 : List.zipWith (fun x y => y - x) ([1, 1, 2] : List ℚ) ([1, 1, 2] : List ℚ).tail
      = [0, 1] := by norm_num
  have h2 : listMin ([0, 1] : List ℚ) = some 0 := by
    norm_num [listMin, List.foldl, min_def]
  have h3 : listMax ([1, 1, 2] : List ℚ) = some 2 := by
    norm_num [listMax, List.foldl, max_def]
  have h4 : listMin ([1, 1, 2] : List ℚ) = some 1 := by
    norm_num [listMin, List.foldl, min_def]
  have h5 : ([0, 1] : List ℚ).filter (fun d => decide (0 < d)) = [1] := by
    norm_num [List.filter]
  have h6 : listMin ([1] : List ℚ) = some 1 := by
    norm_num [listMin, List.foldl]
  refine ⟨?_, ?_, by norm_num⟩
  · rw [Diagnostics.epsilonBounds, consecDiffs, hs, h1, h2, h3, h4]
    norm_num
  · rw [smallestPositiveGap, consecDiffs, hs, h1, h5, h6]

/-! ### Claims about the machine-subset enumeration -/

theorem combinations_eq_reverse_sublistsLen {β : Type} (n : ℕ) (l : List β) :
    combinations n l = (List.sublistsLen n l).reverse := by
  induction l generalizing n with
  | nil =>
    cases n with
    | zero => simp [combinations]
    | succ n => simp [combinations]
  | cons x xs ih =>
    cases n with
    | zero => simp [combinations]
    | succ n =>
      rw [combinations, List.sublistsLen_succ_cons, List.reverse_append,
        ← List.map_reverse, ih n, ih (n + 1), List.map_reverse]

theorem mem_combinations {β : Type} {n : ℕ} {l c : List β} :
    c ∈ combinations n l ↔ List.Sublist c l ∧ c.length = n := by
  rw [combinations_eq_reverse_sublistsLen, List.mem_reverse]
  exact List.mem_sublistsLen

theorem length_combinations {β : Type} (n : ℕ) (l : List β) :
    (combinations n l).length = l.length.choose n := by
  rw [combinations_eq_reverse_sublistsLen, List.length_reverse]
  exact List.length_sublistsLen n l

theorem nodup_combinations {β : Type} (n : ℕ) {l : List β} (h : l.Nodup) :
    (combinations n l).Nodup := by
  rw [combinations_eq_reverse_sublistsLen, List.nodup_reverse]
  exact List.nodup_sublistsLen n h

theorem enumCombinations_length (names : List String) :
    (Diagnostics.enumCombinations names).length = 2 ^ names.length - 1 := by
  rw [Diagnostics.enumCombinations, List.flatMap_def, List.length_flatten, List.map_map]
  have hc : (List.length ∘ fun num => combinations num names)
      = fun num => names.length.choose num := by
    funext num
    exact length_combinations num names
  rw [hc, List.range'_eq_map_range, List.map_map]
  show (∑ i ∈ Finset.range names.length, names.length.choose (1 + i))
      = 2 ^ names.length - 1
  have hcomm : (∑ i ∈ Finset.range names.length, names.length.choose (1 + i))
      = ∑ i ∈ Finset.range names.length, names.length.choose (i + 1) :=
    Finset.sum_congr rfl (fun i _ => by rw [Nat.add_comm])
  have key : (∑ i ∈ Finset.range names.length, names.length.choose (i + 1))
      + names.length.choose 0 = 2 ^ names.length := by
    rw [← Finset.sum_range_succ' (fun m => names.length.choose m) names.length]
    exact Nat.sum_range_choose names.length
  simp only [Nat.choose_zero_right] at key
  omega

theorem enumCombinations_nodup (names : List String) (hn : names.Nodup) :
    (Diagnostics.enumCombinations names).Nodup := by
  rw [Diagnostics.enumCombinations]
  apply List.nodup_flatMap.mpr
  refine ⟨fun num _ => nodup_combinations num hn, ?_⟩
  apply List.Pairwise.imp ?_ (List.pairwise_lt_range' 1 names.length)
  intro a b hab c hca hcb
  have h1 := (mem_combinations.mp hca).2
  have h2 := (mem_combinations.mp hcb).2
  omega

theorem enumCombinations_mem (names : List String) (c : List String) :
    c ∈ Diagnostics.enumCombinations names ↔ c ≠ [] ∧ List.Sublist c names := by
  rw [Diagnostics.enumCombinations, List.mem_flatMap]
  constructor
  · rintro ⟨num, hnum, hc⟩
    obtain ⟨hsub, hlen⟩ := mem_combinations.mp hc
    have h1 : 1 ≤ num := (List.mem_range'_1.mp hnum).1
    refine ⟨?_, hsub⟩
    intro he
    rw [he] at hlen
    simp only [List.length_nil] at hlen
    omega
  · rintro ⟨hne, hsub⟩
    refine ⟨c.length, ?_, mem_combinations.mpr ⟨hsub, rfl⟩⟩
    rw [List.mem_range'_1]
    have hle := hsub.length_le
    have hpos : 0 < c.length := List.length_pos.mpr hne
    omega

theorem enumCombinations_ascending (names : List String) :
    (Diagnostics.enumCombinations names).Pairwise (fun c d => c.length ≤ d.length) := by
  rw [Diagnostics.enumCombinations]
  apply List.pairwise_flatMap.mpr
  constructor
  · intro num _
    apply List.pairwise_of_forall_mem_list
    intro c hc d hd
    rw [(mem_combinations.mp hc).2, (mem_combinations.mp hd).2]
  · apply List.Pairwise.imp ?_ (List.pairwise_lt_range' 1 names.length)
    intro a b hab c hca d hdb
    rw [(mem_combinations.mp hca).2, (mem_combinations.mp hdb).2]
    exact hab.le

/-- Concrete check of the enumeration order: for the registry
`["a", "b", "c"]` the sweep enumerates the combinations exactly as
`itertools.combinations` does for each cardinality —
`(a,), (b,), (c,), (a,b), (a,c), (b,c), (a,b,c)`. -/
theorem enumCombinations_itertools_order :
    Diagnostics.enumCombinations ["a", "b", "c"]
      = [["a"], ["b"], ["c"], ["a", "b"], ["a", "c"], ["b", "c"], ["a", "b", "c"]] :=
  rfl

/-- Concrete check of the tie-break against the enumeration order: with two
machines and all combination scores tied, the `info=False` return of the
machine-subset sweep is the first enumerated combination `(a,)`, exactly as
`min(MSE, key=MSE.get)` returns in Python. -/
theorem optimal_machines_best_tied_scores :
    Diagnostics.optimal_machines_best ["a", "b"] (fun _ => 5) = some (["a"], 5) :=
  rfl

/-- C6: for a registry with `n` distinct machine names, the subset sweep of
`optimal_machines` enumerates exactly `2 ^ n - 1` combinations, they are
pairwise distinct, they are exactly the non-empty subsequences of the
registry key list (each combination keeps registry order), they appear in
ascending cardinality, and the `info=True` map has exactly `2 ^ n - 1`
entries (one fresh combiner evaluation per combination). -/
theorem optimal_machines_enumerates_all_subsets (names : List String)
    (score : List String → ℚ) (hn : names.Nodup) :
    (Diagnostics.enumCombinations names).length = 2 ^ names.length - 1 ∧
    (Diagnostics.enumCombinations names).Nodup ∧
    (∀ c, c ∈ Diagnostics.enumCombinations names ↔ c ≠ [] ∧ List.Sublist c names) ∧
    (Diagnostics.enumCombinations names).Pairwise (fun c d => c.length ≤ d.length) ∧
    (Diagnostics.optimal_machines_info names score).length = 2 ^ names.length - 1 := by
  refine ⟨enumCombinations_length names, enumCombinations_nodup names hn,
    enumCombinations_mem names, enumCombinations_ascending names, ?_⟩
  rw [Diagnostics.optimal_machines_info, List.length_map]
  exact enumCombinations_length names

/-- C6 witness: the enumeration theorem instantiated at the two-name
registry `["a", "b"]` with a constant score. -/
theorem optimal_machines_enumerates_all_subsets_witness :
    (["a", "b"] : List String).Nodup ∧
    ((Diagnostics.enumCombinations ["a", "b"]).length
        = 2 ^ (["a", "b"] : List String).length - 1 ∧
      (Diagnostics.enumCombinations ["a", "b"]).Nodup ∧
      (∀ c, c ∈ Diagnostics.enumCombinations ["a", "b"] ↔
        c ≠ [] ∧ List.Sublist c ["a", "b"]) ∧
      (Diagnostics.enumCombinations ["a", "b"]).Pairwise
        (fun c d => c.length ≤ d.length) ∧
      (Diagnostics.optimal_machines_info ["a", "b"] (fun _ => 0)).length
        = 2 ^ (["a", "b"] : List String).length - 1) :=
  ⟨by decide,
    optimal_machines_enumerates_all_subsets ["a", "b"] (fun _ => 0) (by decide)⟩

/-! ### Claims about the `info=False` minimisation -/

theorem foldl_pyMinStep_spec {K : Type} (ps : List (K × ℚ)) (p : K × ℚ) :
    ∃ pre suf, p :: ps = pre ++ (ps.foldl pyMinStep p) :: suf ∧
      (∀ q ∈ p :: ps, (ps.foldl pyMinStep p).2 ≤ q.2) ∧
      (∀ q ∈ pre, (ps.foldl pyMinStep p).2 < q.2) := by
  induction ps generalizing p with
  | nil => exact ⟨[], [], rfl, by simp, by simp⟩
  | cons q ps ih =>
    rw [List.foldl_cons]
    by_cases hlt : q.2 < p.2
    · rw [show pyMinStep p q = q from if_pos hlt]
      obtain ⟨pre, suf, hdec, hle, hpre⟩ := ih q
      refine ⟨p :: pre, suf, ?_, ?_, ?_⟩
      · rw [List.cons_append, ← hdec]
      · intro x hx
        rcases List.mem_cons.mp hx with rfl | hx
        · exact le_trans (hle q (List.mem_cons_self _ _)) hlt.le
        · exact hle x hx
      · intro x hx
        rcases List.mem_cons.mp hx with rfl | hx
        · exact lt_of_le_of_lt (hle q (List.mem_cons_self _ _)) hlt
        · exact hpre x hx
    · rw [show pyMinStep p q = p from if_neg hlt]
      push_neg at hlt
      obtain ⟨pre, suf, hdec, hle, hpre⟩ := ih p
      cases pre with
      | nil =>
        rw [List.nil_append] at hdec
        have hr : ps.foldl pyMinStep p = p := (List.cons.injEq _ _ _ _ ▸ hdec).1.symm
        refine ⟨[], q :: ps, ?_, ?_, by simp⟩
        · rw [List.nil_append, hr]
        · intro x hx
          rw [hr]
          rcases List.mem_cons.mp hx with rfl | hx
          · exact le_refl _
          · rcases List.mem_cons.mp hx with rfl | hx
            · exact hlt
            · exact hr ▸ hle x (List.mem_cons_of_mem p hx)
      | cons a pre₂ =>
        rw [List.cons_append] at hdec
        have ha : a = p := (List.cons.injEq _ _ _ _ ▸ hdec).1.symm
        have hps : ps = pre₂ ++ (ps.foldl pyMinStep p) :: suf :=
          (List.cons.injEq _ _ _ _ ▸ hdec).2
        have hrp : (ps.foldl pyMinStep p).2 < p.2 :=
          ha ▸ hpre a (List.mem_cons_self _ _)
        refine ⟨p :: q :: pre₂, suf, ?_, ?_, ?_⟩
        · rw [List.cons_append, List.cons_append, ← hps]
        · intro x hx
          rcases List.mem_cons.mp hx with rfl | hx
          · exact hle x (List.mem_cons_self _ _)
          · rcases List.mem_cons.mp hx with rfl | hx
            · exact le_trans hrp.le hlt
            · exact hle x (List.mem_cons_of_mem p hx)
        · intro x hx
          rcases List.mem_cons.mp hx with rfl | hx
          · exact hrp
          · rcases List.mem_cons.mp hx with rfl | hx
            · exact lt_of_lt_of_le hrp hlt
            · exact hpre x (ha ▸ List.mem_cons_of_mem a hx)

theorem sweepBest_first_min {K : Type} [DecidableEq K] (m : List (K × ℚ))
    (hm : m ≠ []) (hkeys : (m.map Prod.fst).Nodup) :
    ∃ k v pre suf, sweepBest m = some (k, v) ∧ m = pre ++ (k, v) :: suf ∧
      (∀ q ∈ m, v ≤ q.2) ∧ (∀ q ∈ pre, v < q.2) := by
  cases m with
  | nil => exact absurd rfl hm
  | cons p ps =>
    obtain ⟨pre, suf, hdec, hle, hpre⟩ := foldl_pyMinStep_spec ps p
    have hmem : ps.foldl pyMinStep p ∈ p :: ps := by
      rw [hdec]
      exact List.mem_append_right pre (List.mem_cons_self _ _)
    have hlook : alookup (p :: ps) (ps.foldl pyMinStep p).1
        = some (ps.foldl pyMinStep p).2 :=
      alookup_eq_of_mem (p :: ps) (ps.foldl pyMinStep p) hkeys hmem
    refine ⟨(ps.foldl pyMinStep p).1, (ps.foldl pyMinStep p).2, pre, suf, ?_, ?_, hle, hpre⟩
    · rw [sweepBest, pyMinKey]
      dsimp only
      rw [hlook]
    · rw [hdec]

/-- C7: for both the alpha sweep and the machine-subset sweep, the
`info=False` return value is `some (k, v)` where `v` is the minimum MSE
value of the map returned with `info=True` and `k` is the first key of the
sweep's enumeration order attaining that minimum (every strictly earlier
entry scores strictly worse). -/
theorem sweeps_return_first_minimum (n : ℕ) (ascore : ℕ → ℚ)
    (names : List String) (mscore : List String → ℚ)
    (hn : n ≠ 0) (hnames : names ≠ []) (hnodup : names.Nodup) :
    (∃ k v pre suf, Diagnostics.optimal_alpha_best n ascore = some (k, v) ∧
      Diagnostics.optimal_alpha_info n ascore = pre ++ (k, v) :: suf ∧
      (∀ q ∈ Diagnostics.optimal_alpha_info n ascore, v ≤ q.2) ∧
      (∀ q ∈ pre, v < q.2)) ∧
    (∃ k v pre suf, Diagnostics.optimal_machines_best names mscore = some (k, v) ∧
      Diagnostics.optimal_machines_info names mscore = pre ++ (k, v) :: suf ∧
      (∀ q ∈ Diagnostics.optimal_machines_info names mscore, v ≤ q.2) ∧
      (∀ q ∈ pre, v < q.2)) := by
  constructor
  · apply sweepBest_first_min
    · intro he
      have := congrArg List.length he
      rw [Diagnostics.optimal_alpha_info, List.length_map, List.length_range'] at this
      simp only [List.length_nil] at this
      omega
    · have : (Diagnostics.optimal_alpha_info n ascore).map Prod.fst = List.range' 1 n := by
        rw [Diagnostics.optimal_alpha_info, List.map_map]
        show List.map (fun a => a) (List.range' 1 n) = List.range' 1 n
        exact List.map_id' _
      rw [this]
      exact List.nodup_range' 1 n
  · apply sweepBest_first_min
    · intro he
      have := congrArg List.length he
      rw [Diagnostics.optimal_machines_info, List.length_map,
        enumCombinations_length] at this
      simp only [List.length_nil] at this
      have h2 : 1 < 2 ^ names.length :=
        Nat.one_lt_two_pow_iff.mpr (fun h0 => hnames (List.length_eq_zero.mp h0))
      omega
    · have : (Diagnostics.optimal_machines_info names mscore).map Prod.fst
          = Diagnostics.enumCombinations names := by
        rw [Diagnostics.optimal_machines_info, List.map_map]
        show List.map (fun c => c) (Diagnostics.enumCombinations names)
          = Diagnostics.enumCombinations names
        exact List.map_id' _
      rw [this]
      exact enumCombinations_nodup names hnodup

/-- C7 witness: the first-minimum theorem instantiated with one machine and
constant scores. -/
theorem sweeps_return_first_minimum_witness :
    ((1 : ℕ) ≠ 0 ∧ (["a"] : List String) ≠ [] ∧ (["a"] : List String).Nodup) ∧
    ((∃ k v pre suf, Diagnostics.optimal_alpha_best 1 (fun _ => 0) = some (k, v) ∧
      Diagnostics.optimal_alpha_info 1 (fun _ => 0) = pre ++ (k, v) :: suf ∧
      (∀ q ∈ Diagnostics.optimal_alpha_info 1 (fun _ => 0), v ≤ q.2) ∧
      (∀ q ∈ pre, v < q.2)) ∧
    (∃ k v pre suf, Diagnostics.optimal_machines_best ["a"] (fun _ => 0) = some (k, v) ∧
      Diagnostics.optimal_machines_info ["a"] (fun _ => 0) = pre ++ (k, v) :: suf ∧
      (∀ q ∈ Diagnostics.optimal_machines_info ["a"] (fun _ => 0), v ≤ q.2) ∧
      (∀ q ∈ pre, v < q.2))) :=
  ⟨⟨by decide, by decide, by decide⟩,
    sweeps_return_first_minimum 1 (fun _ => 0) ["a"] (fun _ => 0)
      (by decide) (by decide) (by decide)⟩
